import Mathlib

/-!
Verification of the hook orchestration subsystem of goliatone/go-template.

The Go source (hooks.go, engine.go) is embedded shallowly:

* `HookContext` mirrors the Go struct `HookContext`; the `Data` field (Go
  `any`) is a type parameter `α`, and `Metadata` (Go `map[string]any`) is an
  association list over the same parameter.
* A Go hook receives a pointer to the context and may mutate it, so a
  `PreHook` is modelled as a function returning the updated context together
  with the Go return values; the Go `error` type is a type parameter `ε`,
  a `nil` error is `Option.none`.
* `HookManager` keeps hooks in a Go map keyed by integer priority.  A Go map
  is iteration-order free; it is modelled as an association list with the
  usual first-key-wins lookup, and the read path sorts the collected keys
  exactly as `sort.Ints` does in the source, which makes every result below
  independent of the association order.
* Slices of hooks are Lean lists; `append` is `++`.
-/

/-- Mirror of Go struct `HookContext` (hooks.go). `Data` abstracts Go `any`,
`Metadata` abstracts `map[string]any`. -/
structure HookContext (α : Type) where
  TemplateName : String
  Template : String
  Data : α
  Output : String
  Metadata : List (String × α)
  IsPreHook : Bool
deriving Repr, DecidableEq

/-- Go `type PreHook func(ctx *HookContext) error`: the hook may mutate the
context (returned as the first component) and returns an error or nil. -/
def PreHook (α ε : Type) : Type :=
  HookContext α → HookContext α × Option ε

/-- Go `type PostHook func(ctx *HookContext) (string, error)`: the hook may
mutate the context and returns a string and an error (nil = `none`). -/
def PostHook (α ε : Type) : Type :=
  HookContext α → HookContext α × String × Option ε

/-- Mirror of Go struct `HookChain` (hooks.go): two ordered hook slices. -/
structure HookChain (α ε : Type) where
  preHooks : List (PreHook α ε)
  postHooks : List (PostHook α ε)

/-- Go `NewHookChain()` with no options: both slices empty. -/
def NewHookChain (α ε : Type) : HookChain α ε :=
  ⟨[], []⟩

/-- Go `(c *HookChain) AddPreHook(hook PreHook) *HookChain`: append. -/
def HookChain.AddPreHook (c : HookChain α ε) (hook : PreHook α ε) : HookChain α ε :=
  { c with preHooks := c.preHooks ++ [hook] }

/-- Go `(c *HookChain) AddPostHook(hook PostHook) *HookChain`: append. -/
def HookChain.AddPostHook (c : HookChain α ε) (hook : PostHook α ε) : HookChain α ε :=
  { c with postHooks := c.postHooks ++ [hook] }

/-- The loop body of Go `ExecutePreHooks`: run the hooks in order against the
threaded context, returning the first error, if any. -/
def execPreLoop : List (PreHook α ε) → HookContext α → HookContext α × Option ε
  | [], ctx => (ctx, none)
  | hook :: rest, ctx =>
    match hook ctx with
    | (ctx1, some e) => (ctx1, some e)
    | (ctx1, none) => execPreLoop rest ctx1

/-- Go `(c *HookChain) ExecutePreHooks(ctx *HookContext) error`. -/
def HookChain.ExecutePreHooks (c : HookChain α ε) (ctx : HookContext α) :
    HookContext α × Option ε :=
  execPreLoop c.preHooks ctx

/-- The loop of Go `ExecutePostHooks`: `response` is the local accumulator;
on success both `response` and `ctx.Output` are overwritten with the hook's
returned string; on error the pair `("", err)` is returned. -/
def execPostLoop : List (PostHook α ε) → HookContext α → String →
    HookContext α × String × Option ε
  | [], ctx, response => (ctx, response, none)
  | hook :: rest, ctx, _response =>
    match hook ctx with
    | (ctx1, _out, some e) => (ctx1, "", some e)
    | (ctx1, out, none) => execPostLoop rest { ctx1 with Output := out } out

/-- Go `(c *HookChain) ExecutePostHooks(ctx *HookContext) (string, error)`:
the accumulator starts from `ctx.Output`. -/
def HookChain.ExecutePostHooks (c : HookChain α ε) (ctx : HookContext α) :
    HookContext α × String × Option ε :=
  execPostLoop c.postHooks ctx ctx.Output

/-- Go `(c *HookChain) AsPreHook() PreHook`: a closure running the chain. -/
def HookChain.AsPreHook (c : HookChain α ε) : PreHook α ε :=
  fun ctx => c.ExecutePreHooks ctx

/-- Go `(c *HookChain) AsPostHook() PostHook`: a closure running the chain. -/
def HookChain.AsPostHook (c : HookChain α ε) : PostHook α ε :=
  fun ctx => c.ExecutePostHooks ctx

/-- Reading a key from a Go map modelled as an association list (`m[p]`,
returning `none` when the key is absent). -/
def mapGet : List (Int × β) → Int → Option β
  | [], _ => none
  | (k, w) :: rest, p => if k = p then some w else mapGet rest p

/-- Setting a key in a Go map modelled as an association list: replace the
value at the (first) occurrence of the key, or add a new entry. -/
def mapSet : List (Int × β) → Int → β → List (Int × β)
  | [], p, v => [(p, v)]
  | (k, w) :: rest, p, v =>
    if k = p then (k, v) :: rest else (k, w) :: mapSet rest p v

/-- Mirror of Go struct `HookManager` (hooks.go): `preHooks map[int][]PreHook`
and `postHooks map[int][]PostHook`, each modelled as an association list.
The hook entry types are parameters `π` and `ψ`: the registry never calls
its hooks. -/
structure HookManager (π ψ : Type) where
  preHooks : List (Int × List π)
  postHooks : List (Int × List ψ)

/-- Go `NewHooksManager()`: both maps empty. -/
def NewHooksManager (π ψ : Type) : HookManager π ψ :=
  ⟨[], []⟩

/-- Go `(e *HookManager) AddPreHook(hook PreHook, priority ...int)`:
`p` defaults to 0 when the variadic argument is absent; the bucket for `p`
is read (empty when absent) and the hook appended. -/
def HookManager.AddPreHook (m : HookManager π ψ) (hook : π) (priority : Option Int) :
    HookManager π ψ :=
  let p := priority.getD 0
  let hooks := (mapGet m.preHooks p).getD []
  { m with preHooks := mapSet m.preHooks p (hooks ++ [hook]) }

/-- Go `(e *HookManager) AddPostHook(hook PostHook, priority ...int)`. -/
def HookManager.AddPostHook (m : HookManager π ψ) (hook : ψ) (priority : Option Int) :
    HookManager π ψ :=
  let p := priority.getD 0
  let hooks := (mapGet m.postHooks p).getD []
  { m with postHooks := mapSet m.postHooks p (hooks ++ [hook]) }

/-- Go `(e *HookManager) PreHooks() []PreHook`: collect the map keys, sort
them ascending (`sort.Ints`), and concatenate the buckets in that order. -/
def HookManager.PreHooks (m : HookManager π ψ) : List π :=
  let keys := (m.preHooks.map Prod.fst).insertionSort (· ≤ ·)
  keys.flatMap fun priority => (mapGet m.preHooks priority).getD []

/-- Go `(e *HookManager) PostHooks() []PostHook`. -/
def HookManager.PostHooks (m : HookManager π ψ) : List ψ :=
  let keys := (m.postHooks.map Prod.fst).insertionSort (· ≤ ·)
  keys.flatMap fun priority => (mapGet m.postHooks priority).getD []

/-- One registration call against the manager, tagged pre or post, with the
optional priority argument. -/
inductive RegOp (π ψ : Type)
  | pre (hook : π) (priority : Option Int)
  | post (hook : ψ) (priority : Option Int)

/-- Apply one registration call. -/
def HookManager.applyOp (m : HookManager π ψ) : RegOp π ψ → HookManager π ψ
  | RegOp.pre hook priority => m.AddPreHook hook priority
  | RegOp.post hook priority => m.AddPostHook hook priority

/-- Apply a sequence of registration calls in order. -/
def HookManager.applyOps (m : HookManager π ψ) (ops : List (RegOp π ψ)) : HookManager π ψ :=
  ops.foldl HookManager.applyOp m

/-- The pre-hook registrations of an op sequence, in order: (hook, priority). -/
def preOpsOf : List (RegOp π ψ) → List (π × Option Int)
  | [] => []
  | RegOp.pre hook priority :: rest => (hook, priority) :: preOpsOf rest
  | RegOp.post _ _ :: rest => preOpsOf rest

/-- The post-hook registrations of an op sequence, in order. -/
def postOpsOf : List (RegOp π ψ) → List (ψ × Option Int)
  | [] => []
  | RegOp.pre _ _ :: rest => postOpsOf rest
  | RegOp.post hook priority :: rest => (hook, priority) :: postOpsOf rest

/-- The effective priority of a registration pair: the optional argument,
defaulting to 0. -/
def regPriority (o : β × Option Int) : Int :=
  o.2.getD 0

/-- The flat hook sequence the spec describes: the distinct priorities in
ascending numeric order, and under each priority the hooks registered at it,
in registration order. -/
def specOrderedHooks (ops : List (β × Option Int)) : List β :=
  (((ops.map regPriority).dedup).insertionSort (· ≤ ·)).flatMap
    fun p => (ops.filter fun o => decide (regPriority o = p)).map Prod.fst

lemma execPreLoop_append (l1 l2 : List (PreHook α ε)) (ctx : HookContext α) :
    execPreLoop (l1 ++ l2) ctx =
      match execPreLoop l1 ctx with
      | (c, some e) => (c, some e)
      | (c, none) => execPreLoop l2 c := by
  induction l1 generalizing ctx with
  | nil => simp [execPreLoop]
  | cons h t ih =>
    simp only [List.cons_append, execPreLoop]
    rcases hh : h ctx with ⟨c1, err⟩
    cases err <;> simp [ih]

lemma execPreLoop_all_ok (l : List (PreHook α ε)) (ctx : HookContext α)
    (hok : ∀ h ∈ l, ∀ c, (h c).2 = none) :
    (execPreLoop l ctx).2 = none := by
  induction l generalizing ctx with
  | nil => simp [execPreLoop]
  | cons h t ih =>
    rcases hh : h ctx with ⟨c1, err⟩
    have := hok h (List.mem_cons_self h t) ctx
    rw [hh] at this
    subst this
    simp only [execPreLoop, hh]
    exact ih c1 fun g hg c => hok g (List.mem_cons_of_mem h hg) c

lemma execPostLoop_append (l1 l2 : List (PostHook α ε)) (ctx : HookContext α) (r : String) :
    execPostLoop (l1 ++ l2) ctx r =
      match execPostLoop l1 ctx r with
      | (c, o, some e) => (c, o, some e)
      | (c, o, none) => execPostLoop l2 c o := by
  induction l1 generalizing ctx r with
  | nil => simp [execPostLoop]
  | cons h t ih =>
    simp only [List.cons_append, execPostLoop]
    rcases hh : h ctx with ⟨c1, out, err⟩
    cases err <;> simp [ih]

lemma execPostLoop_output_inv (l : List (PostHook α ε)) (ctx : HookContext α) (r : String)
    (hr : r = ctx.Output) (hok : (execPostLoop l ctx r).2.2 = none) :
    (execPostLoop l ctx r).1.Output = (execPostLoop l ctx r).2.1 := by
  induction l generalizing ctx r with
  | nil => simpa [execPostLoop] using hr.symm
  | cons h t ih =>
    rcases hh : h ctx with ⟨c1, out, err⟩
    cases err with
    | some e => simp [execPostLoop, hh] at hok
    | none =>
      simp only [execPostLoop, hh] at hok ⊢
      exact ih { c1 with Output := out } out rfl hok

lemma execPostLoop_error_empty (l : List (PostHook α ε)) (ctx : HookContext α) (r : String)
    (e : ε) (he : (execPostLoop l ctx r).2.2 = some e) :
    (execPostLoop l ctx r).2.1 = "" := by
  induction l generalizing ctx r with
  | nil => simp [execPostLoop] at he
  | cons h t ih =>
    rcases hh : h ctx with ⟨c1, out, err⟩
    cases err with
    | some e1 => simp [execPostLoop, hh]
    | none =>
      simp only [execPostLoop, hh] at he ⊢
      exact ih { c1 with Output := out } out he

/-- The literal post-hooks of the spec's threading example: return
`marker + ctx.output` without touching the context. -/
def prependHook (marker : String) : PostHook α ε :=
  fun ctx => (ctx, marker ++ ctx.Output, none)

/-- A post-hook that fails with a fixed error and leaves the context alone. -/
def failPostHook (e : ε) : PostHook α ε :=
  fun ctx => (ctx, "", some e)

/-- A pre-hook that always succeeds and leaves the context alone. -/
def okPreHook : PreHook α ε :=
  fun ctx => (ctx, none)

/-- A pre-hook that fails with a fixed error and leaves the context alone. -/
def failPreHook (e : ε) : PreHook α ε :=
  fun ctx => (ctx, some e)

/-- A concrete context used to instantiate theorems. -/
def sampleCtx : HookContext Nat :=
  { TemplateName := "t", Template := "", Data := 0, Output := "original",
    Metadata := [], IsPreHook := true }

/-- C2: `ExecutePostHooks` starts from `ctx.Output`; after each successful
hook the local accumulator and `ctx.Output` are both overwritten with the
hook's returned string before the next hook runs, so each hook observes the
cumulative output of its predecessors; in particular three hooks prepending
"hook1-", "hook2-", "hook3-" on initial output "original" yield
"hook3-hook2-hook1-original". -/
theorem executePostHooks_threads_output :
    (∀ (pre : List (PreHook α ε)) (h : PostHook α ε) (hs : List (PostHook α ε))
      (ctx ctx1 : HookContext α) (out : String),
      h ctx = (ctx1, out, none) →
      HookChain.ExecutePostHooks ⟨pre, h :: hs⟩ ctx
        = HookChain.ExecutePostHooks ⟨pre, hs⟩ { ctx1 with Output := out }) ∧
    (∀ ctx : HookContext α,
      HookChain.ExecutePostHooks (ε := ε)
          ⟨[], [prependHook "hook1-", prependHook "hook2-", prependHook "hook3-"]⟩
          { ctx with Output := "original" }
        = ({ ctx with Output := "hook3-hook2-hook1-original" },
           "hook3-hook2-hook1-original", none)) := by
  constructor
  · intro pre h hs ctx ctx1 out hh
    simp [HookChain.ExecutePostHooks, execPostLoop, hh]
  · intro ctx
    rfl

/-- C2 witness: the threading step applied to a concrete prepending hook. -/
theorem executePostHooks_threads_output_witness :
    HookChain.ExecutePostHooks (α := Nat) (ε := String)
        ⟨[], [prependHook "p-"]⟩ sampleCtx
      = HookChain.ExecutePostHooks ⟨[], []⟩ { sampleCtx with Output := "p-original" } :=
  (executePostHooks_threads_output).1 [] (prependHook "p-") [] sampleCtx sampleCtx
    "p-original" rfl

/-- C3: `ExecutePreHooks` runs pre-hooks in append order and stops at the
first failing hook, returning exactly its error; the result does not depend
on the hooks after the failing one (they are never invoked); if every hook
succeeds, the run returns success. -/
theorem executePreHooks_fail_fast :
    (∀ (hs1 : List (PreHook α ε)) (hbad : PreHook α ε) (hs2 : List (PreHook α ε))
      (post : List (PostHook α ε)) (ctx ctx1 ctx2 : HookContext α) (e : ε),
      execPreLoop hs1 ctx = (ctx1, none) →
      hbad ctx1 = (ctx2, some e) →
      HookChain.ExecutePreHooks ⟨hs1 ++ hbad :: hs2, post⟩ ctx = (ctx2, some e)) ∧
    (∀ (hs : List (PreHook α ε)) (post : List (PostHook α ε)) (ctx : HookContext α),
      (∀ h ∈ hs, ∀ c, (h c).2 = none) →
      (HookChain.ExecutePreHooks ⟨hs, post⟩ ctx).2 = none) := by
  constructor
  · intro hs1 hbad hs2 post ctx ctx1 ctx2 e h1 h2
    show execPreLoop (hs1 ++ hbad :: hs2) ctx = (ctx2, some e)
    rw [execPreLoop_append, h1]
    simp [execPreLoop, h2]
  · intro hs post ctx hok
    exact execPreLoop_all_ok hs ctx hok

/-- C3 witness: [ok, fail "x", ok] stops at the failing hook with its error. -/
theorem executePreHooks_fail_fast_witness :
    HookChain.ExecutePreHooks (α := Nat) (ε := String)
        ⟨[okPreHook] ++ failPreHook "x" :: [okPreHook], []⟩ sampleCtx
      = (sampleCtx, some "x") :=
  (executePreHooks_fail_fast).1 [okPreHook] (failPreHook "x") [okPreHook] []
    sampleCtx sampleCtx sampleCtx "x" rfl rfl

/-- C5: `ExecutePostHooks` stops at the first failing post-hook, returning
exactly its error paired with the empty string, independently of the hooks
after the failing one (they are never invoked); and on EVERY error result the
returned output is the empty string — no partially transformed output ever
reaches the caller. -/
theorem executePostHooks_error_empty_output :
    (∀ (pre : List (PreHook α ε)) (posts rest : List (PostHook α ε)) (hbad : PostHook α ε)
      (ctx ctx1 ctx2 : HookContext α) (out1 s : String) (e : ε),
      HookChain.ExecutePostHooks ⟨pre, posts⟩ ctx = (ctx1, out1, none) →
      hbad ctx1 = (ctx2, s, some e) →
      HookChain.ExecutePostHooks ⟨pre, posts ++ hbad :: rest⟩ ctx = (ctx2, "", some e)) ∧
    (∀ (c : HookChain α ε) (ctx : HookContext α) (e : ε),
      (c.ExecutePostHooks ctx).2.2 = some e →
      (c.ExecutePostHooks ctx).2.1 = "") := by
  constructor
  · intro pre posts rest hbad ctx ctx1 ctx2 out1 s e h1 h2
    have hloop : execPostLoop posts ctx ctx.Output = (ctx1, out1, none) := h1
    show execPostLoop (posts ++ hbad :: rest) ctx ctx.Output = (ctx2, "", some e)
    rw [execPostLoop_append, hloop]
    simp [execPostLoop, h2]
  · intro c ctx e he
    exact execPostLoop_error_empty c.postHooks ctx ctx.Output e he

/-- C5 witness: a chain [prepend, fail, prepend] stops at the failing hook
with its error and the empty string; the hook after it is never reached. -/
theorem executePostHooks_error_empty_output_witness :
    HookChain.ExecutePostHooks (α := Nat) (ε := String)
        ⟨[], [prependHook "a-"] ++ failPostHook "boom" :: [prependHook "z-"]⟩ sampleCtx
      = ({ sampleCtx with Output := "a-original" }, "", some "boom") :=
  (executePostHooks_error_empty_output).1 [] [prependHook "a-"] [prependHook "z-"]
    (failPostHook "boom") sampleCtx { sampleCtx with Output := "a-original" }
    { sampleCtx with Output := "a-original" } "a-original" "" "boom" rfl rfl

/-- C6: the empty chain is an identity: `ExecutePreHooks` succeeds leaving the
context unchanged, `ExecutePostHooks` returns `ctx.Output` unchanged, and the
`AsPreHook`/`AsPostHook` closures of the empty chain are identity hooks. -/
theorem empty_chain_identity :
    ∀ (pre : List (PreHook α ε)) (post : List (PostHook α ε)) (ctx : HookContext α),
      HookChain.ExecutePreHooks ⟨[], post⟩ ctx = (ctx, none) ∧
      HookChain.ExecutePostHooks ⟨pre, []⟩ ctx = (ctx, ctx.Output, none) ∧
      (NewHookChain α ε).AsPreHook ctx = (ctx, none) ∧
      (NewHookChain α ε).AsPostHook ctx = (ctx, ctx.Output, none) := by
  intro pre post ctx
  exact ⟨rfl, rfl, rfl, rfl⟩

/-- C10: when the appended hook fails after a successful prefix, the returned
pair is ("", error), but `ctx.Output` is not rolled back: the final context
still carries the cumulative output of the successful prefix. -/
theorem executePostHooks_no_rollback :
    ∀ (pre : List (PreHook α ε)) (posts : List (PostHook α ε)) (hbad : PostHook α ε)
      (ctx ctx1 : HookContext α) (out1 s : String) (e : ε),
      HookChain.ExecutePostHooks ⟨pre, posts⟩ ctx = (ctx1, out1, none) →
      hbad ctx1 = (ctx1, s, some e) →
      HookChain.ExecutePostHooks ⟨pre, posts ++ [hbad]⟩ ctx = (ctx1, "", some e) ∧
      ctx1.Output = out1 := by
  intro pre posts hbad ctx ctx1 out1 s e hpre hbadEq
  have hloop : execPostLoop posts ctx ctx.Output = (ctx1, out1, none) := hpre
  constructor
  · show execPostLoop (posts ++ [hbad]) ctx ctx.Output = (ctx1, "", some e)
    rw [execPostLoop_append, hloop]
    simp [execPostLoop, hbadEq]
  · have := execPostLoop_output_inv posts ctx ctx.Output rfl (by rw [hloop])
    rw [hloop] at this
    exact this

/-- C10 witness: two prepending hooks then a failing hook, on output
"original": the call returns ("", error) while the context keeps
"hook2-hook1-original". -/
theorem executePostHooks_no_rollback_witness :
    HookChain.ExecutePostHooks (α := Nat) (ε := String)
        ⟨[], [prependHook "hook1-", prependHook "hook2-"] ++ [failPostHook "boom"]⟩
        sampleCtx
      = ({ sampleCtx with Output := "hook2-hook1-original" }, "", some "boom") ∧
    HookContext.Output { sampleCtx with Output := "hook2-hook1-original" }
      = "hook2-hook1-original" :=
  executePostHooks_no_rollback [] [prependHook "hook1-", prependHook "hook2-"]
    (failPostHook "boom") sampleCtx { sampleCtx with Output := "hook2-hook1-original" }
    "hook2-hook1-original" "" "boom" rfl rfl


lemma mapGet_mapSet (l : List (Int × β)) (p q : Int) (v : β) :
    mapGet (mapSet l p v) q = if q = p then some v else mapGet l q := by
  induction l with
  | nil =>
    by_cases h : q = p
    · subst h; simp [mapSet, mapGet]
    · have h2 : ¬ p = q := fun h3 => h h3.symm
      simp [mapSet, mapGet, h, h2]
  | cons hd tl ih =>
    rcases hd with ⟨k, w⟩
    by_cases hk : k = p
    · subst hk
      by_cases hq : q = k
      · subst hq; simp [mapSet, mapGet]
      · have h2 : ¬ k = q := fun h3 => hq h3.symm
        simp [mapSet, mapGet, hq, h2]
    · by_cases hkq : k = q
      · subst hkq
        simp [mapSet, mapGet, hk]
      · simp [mapSet, mapGet, hk, hkq, ih]

lemma map_fst_mapSet (l : List (Int × β)) (p : Int) (v : β) :
    (mapSet l p v).map Prod.fst =
      if p ∈ l.map Prod.fst then l.map Prod.fst else l.map Prod.fst ++ [p] := by
  induction l with
  | nil => simp [mapSet]
  | cons hd tl ih =>
    rcases hd with ⟨k, w⟩
    by_cases hk : k = p
    · subst hk; simp [mapSet]
    · have h2 : ¬ p = k := fun h3 => hk h3.symm
      by_cases hp : p ∈ tl.map Prod.fst <;>
        simp [mapSet, hk, h2, hp, ih, List.mem_cons]

/-- C7: `AddPreHook` (and `AddPostHook`) appends the hook to the bucket for
the requested priority, creating the bucket if absent; with no priority
argument it registers at priority 0; every other bucket, the keys of existing
buckets (and their order), and the other registry map are untouched.
Registration is a total function: it always succeeds. -/
theorem addHook_appends_to_bucket :
    ∀ (m : HookManager π ψ) (hpre : π) (hpost : ψ) (priority : Option Int),
      ((mapGet (m.AddPreHook hpre priority).preHooks (priority.getD 0)).getD []
          = ((mapGet m.preHooks (priority.getD 0)).getD []) ++ [hpre]) ∧
      ((m.AddPreHook hpre priority).preHooks.map Prod.fst
          = if priority.getD 0 ∈ m.preHooks.map Prod.fst then m.preHooks.map Prod.fst
            else m.preHooks.map Prod.fst ++ [priority.getD 0]) ∧
      (∀ q : Int, q ≠ priority.getD 0 →
          mapGet (m.AddPreHook hpre priority).preHooks q = mapGet m.preHooks q) ∧
      (m.AddPreHook hpre none = m.AddPreHook hpre (some 0)) ∧
      ((m.AddPreHook hpre priority).postHooks = m.postHooks) ∧
      ((mapGet (m.AddPostHook hpost priority).postHooks (priority.getD 0)).getD []
          = ((mapGet m.postHooks (priority.getD 0)).getD []) ++ [hpost]) ∧
      ((m.AddPostHook hpost priority).postHooks.map Prod.fst
          = if priority.getD 0 ∈ m.postHooks.map Prod.fst then m.postHooks.map Prod.fst
            else m.postHooks.map Prod.fst ++ [priority.getD 0]) ∧
      (∀ q : Int, q ≠ priority.getD 0 →
          mapGet (m.AddPostHook hpost priority).postHooks q = mapGet m.postHooks q) ∧
      (m.AddPostHook hpost none = m.AddPostHook hpost (some 0)) ∧
      ((m.AddPostHook hpost priority).preHooks = m.preHooks) := by
  intro m hpre hpost priority
  refine ⟨?_, ?_, ?_, rfl, rfl, ?_, ?_, ?_, rfl, rfl⟩
  · show (mapGet (mapSet m.preHooks _ _) _).getD [] = _
    rw [mapGet_mapSet]
    simp
  · exact map_fst_mapSet m.preHooks (priority.getD 0) _
  · intro q hq
    show mapGet (mapSet m.preHooks _ _) q = _
    rw [mapGet_mapSet]
    simp [hq]
  · show (mapGet (mapSet m.postHooks _ _) _).getD [] = _
    rw [mapGet_mapSet]
    simp
  · exact map_fst_mapSet m.postHooks (priority.getD 0) _
  · intro q hq
    show mapGet (mapSet m.postHooks _ _) q = _
    rw [mapGet_mapSet]
    simp [hq]

/-- C7 witness: adding at priority 1 leaves the priority-0 bucket untouched. -/
theorem addHook_appends_to_bucket_witness :
    mapGet ((NewHooksManager Nat Nat).AddPreHook 7 (some 1)).preHooks 0
      = mapGet (NewHooksManager Nat Nat).preHooks 0 :=
  (addHook_appends_to_bucket (NewHooksManager Nat Nat) 7 7 (some 1)).2.2.1 0 (by decide)

lemma preOpsOf_append (l1 l2 : List (RegOp π ψ)) :
    preOpsOf (l1 ++ l2) = preOpsOf l1 ++ preOpsOf l2 := by
  induction l1 with
  | nil => rfl
  | cons o t ih => cases o <;> simp [preOpsOf, ih]

lemma postOpsOf_append (l1 l2 : List (RegOp π ψ)) :
    postOpsOf (l1 ++ l2) = postOpsOf l1 ++ postOpsOf l2 := by
  induction l1 with
  | nil => rfl
  | cons o t ih => cases o <;> simp [postOpsOf, ih]

lemma applyOps_append_single (m : HookManager π ψ) (l : List (RegOp π ψ)) (o : RegOp π ψ) :
    m.applyOps (l ++ [o]) = (m.applyOps l).applyOp o := by
  simp [HookManager.applyOps, List.foldl_append]

lemma bucketAdd_get (buckets : List (Int × List β)) (hook : β) (p q : Int) :
    (mapGet (mapSet buckets p ((mapGet buckets p).getD [] ++ [hook])) q).getD []
      = (mapGet buckets q).getD [] ++ (if p = q then [hook] else []) := by
  rw [mapGet_mapSet]
  by_cases hq : q = p
  · subst hq; simp
  · have h2 : ¬ p = q := fun h => hq h.symm
    simp [hq, h2]

lemma filter_ops_append_single (ops : List (β × Option Int)) (hook : β) (pr : Option Int)
    (q : Int) :
    (((ops ++ [(hook, pr)]).filter fun o => decide (regPriority o = q)).map Prod.fst)
      = ((ops.filter fun o => decide (regPriority o = q)).map Prod.fst)
        ++ (if pr.getD 0 = q then [hook] else []) := by
  rw [List.filter_append]
  by_cases h : pr.getD 0 = q <;> simp [regPriority, h]

lemma mem_map_fst_mapSet (buckets : List (Int × List β)) (v : List β) (p q : Int) :
    q ∈ (mapSet buckets p v).map Prod.fst ↔ q ∈ buckets.map Prod.fst ∨ q = p := by
  rw [map_fst_mapSet]
  by_cases hp : p ∈ buckets.map Prod.fst
  · simp only [if_pos hp]
    constructor
    · exact Or.inl
    · rintro (h | rfl)
      · exact h
      · exact hp
  · simp [hp, List.mem_append, or_comm]

lemma nodup_map_fst_mapSet (buckets : List (Int × List β)) (v : List β) (p : Int)
    (h : (buckets.map Prod.fst).Nodup) : ((mapSet buckets p v).map Prod.fst).Nodup := by
  rw [map_fst_mapSet]
  by_cases hp : p ∈ buckets.map Prod.fst
  · simpa [hp] using h
  · simp [hp, List.nodup_append, h]

lemma map_regPriority_append_single (ops : List (β × Option Int)) (hook : β)
    (pr : Option Int) :
    (ops ++ [(hook, pr)]).map regPriority = ops.map regPriority ++ [pr.getD 0] := by
  simp [regPriority]

lemma applyOps_charact (ops : List (RegOp π ψ)) :
    (∀ p : Int, (mapGet ((NewHooksManager π ψ).applyOps ops).preHooks p).getD []
        = ((preOpsOf ops).filter fun o => decide (regPriority o = p)).map Prod.fst)
    ∧ (((NewHooksManager π ψ).applyOps ops).preHooks.map Prod.fst).Nodup
    ∧ (∀ p : Int, p ∈ ((NewHooksManager π ψ).applyOps ops).preHooks.map Prod.fst
        ↔ p ∈ (preOpsOf ops).map regPriority)
    ∧ (∀ p : Int, (mapGet ((NewHooksManager π ψ).applyOps ops).postHooks p).getD []
        = ((postOpsOf ops).filter fun o => decide (regPriority o = p)).map Prod.fst)
    ∧ (((NewHooksManager π ψ).applyOps ops).postHooks.map Prod.fst).Nodup
    ∧ (∀ p : Int, p ∈ ((NewHooksManager π ψ).applyOps ops).postHooks.map Prod.fst
        ↔ p ∈ (postOpsOf ops).map regPriority) := by
  induction ops using List.reverseRecOn with
  | nil =>
    refine ⟨?_, ?_, ?_, ?_, ?_, ?_⟩ <;>
      simp [HookManager.applyOps, NewHooksManager, preOpsOf, postOpsOf, mapGet]
  | append_singleton l o ih =>
    obtain ⟨ihPreB, ihPreN, ihPreM, ihPostB, ihPostN, ihPostM⟩ := ih
    rw [applyOps_append_single]
    cases o with
    | pre hook pr =>
      rw [preOpsOf_append, postOpsOf_append]
      refine ⟨?_, ?_, ?_, ?_, ?_, ?_⟩
      · intro q
        show (mapGet (mapSet _ _ _) q).getD [] = _
        rw [bucketAdd_get]
        show _ = ((preOpsOf l ++ [(hook, pr)]).filter _).map Prod.fst
        rw [filter_ops_append_single, ihPreB q]
      · exact nodup_map_fst_mapSet _ _ _ ihPreN
      · intro q
        show q ∈ (mapSet _ _ _).map Prod.fst ↔ _
        rw [mem_map_fst_mapSet]
        show _ ↔ q ∈ (preOpsOf l ++ [(hook, pr)]).map regPriority
        rw [map_regPriority_append_single]
        simp [ihPreM q, or_comm, eq_comm]
      · intro q
        simpa [postOpsOf] using ihPostB q
      · exact ihPostN
      · intro q
        simpa [postOpsOf] using ihPostM q
    | post hook pr =>
      rw [preOpsOf_append, postOpsOf_append]
      refine ⟨?_, ?_, ?_, ?_, ?_, ?_⟩
      · intro q
        simpa [preOpsOf] using ihPreB q
      · exact ihPreN
      · intro q
        simpa [preOpsOf] using ihPreM q
      · intro q
        show (mapGet (mapSet _ _ _) q).getD [] = _
        rw [bucketAdd_get]
        show _ = ((postOpsOf l ++ [(hook, pr)]).filter _).map Prod.fst
        rw [filter_ops_append_single, ihPostB q]
      · exact nodup_map_fst_mapSet _ _ _ ihPostN
      · intro q
        show q ∈ (mapSet _ _ _).map Prod.fst ↔ _
        rw [mem_map_fst_mapSet]
        show _ ↔ q ∈ (postOpsOf l ++ [(hook, pr)]).map regPriority
        rw [map_regPriority_append_single]
        simp [ihPostM q, or_comm, eq_comm]

lemma sorted_keys_eq (keys prios : List Int) (hnd : keys.Nodup)
    (hmem : ∀ p, p ∈ keys ↔ p ∈ prios) :
    keys.insertionSort (· ≤ ·) = prios.dedup.insertionSort (· ≤ ·) := by
  have hperm : List.Perm keys prios.dedup := by
    rw [List.perm_ext_iff_of_nodup hnd (List.nodup_dedup prios)]
    intro a
    rw [List.mem_dedup]
    exact hmem a
  exact List.eq_of_perm_of_sorted
    (((List.perm_insertionSort _ keys).trans hperm).trans
      (List.perm_insertionSort _ prios.dedup).symm)
    (List.sorted_insertionSort _ keys) (List.sorted_insertionSort _ prios.dedup)

lemma preHooks_applyOps (ops : List (RegOp π ψ)) :
    ((NewHooksManager π ψ).applyOps ops).PreHooks = specOrderedHooks (preOpsOf ops) := by
  obtain ⟨hB, hN, hM, _, _, _⟩ := applyOps_charact ops
  show ((((NewHooksManager π ψ).applyOps ops).preHooks.map Prod.fst).insertionSort
      (· ≤ ·)).flatMap _ = _
  rw [sorted_keys_eq _ ((preOpsOf ops).map regPriority) hN hM]
  show _ = (((preOpsOf ops).map regPriority).dedup.insertionSort (· ≤ ·)).flatMap _
  congr 1
  funext p
  exact hB p

lemma postHooks_applyOps (ops : List (RegOp π ψ)) :
    ((NewHooksManager π ψ).applyOps ops).PostHooks = specOrderedHooks (postOpsOf ops) := by
  obtain ⟨_, _, _, hB, hN, hM⟩ := applyOps_charact ops
  show ((((NewHooksManager π ψ).applyOps ops).postHooks.map Prod.fst).insertionSort
      (· ≤ ·)).flatMap _ = _
  rw [sorted_keys_eq _ ((postOpsOf ops).map regPriority) hN hM]
  show _ = (((postOpsOf ops).map regPriority).dedup.insertionSort (· ≤ ·)).flatMap _
  congr 1
  funext p
  exact hB p

lemma flatMap_congr_mem (l : List γ) (f g : γ → List β) (h : ∀ a ∈ l, f a = g a) :
    l.flatMap f = l.flatMap g := by
  induction l with
  | nil => rfl
  | cons a t ih =>
    simp only [List.flatMap_cons]
    rw [h a (List.mem_cons_self a t), ih fun b hb => h b (List.mem_cons_of_mem a hb)]

lemma flatMap_filter_perm (ps : List Int) (l : List (β × Option Int)) (hnd : ps.Nodup)
    (hmem : ∀ o ∈ l, regPriority o ∈ ps) :
    List.Perm (ps.flatMap fun p => l.filter fun o => decide (regPriority o = p)) l := by
  induction ps generalizing l with
  | nil =>
    cases l with
    | nil => simp
    | cons a t => exact absurd (hmem a (List.mem_cons_self a t)) (List.not_mem_nil _)
  | cons p ps ih =>
    have hps : ps.Nodup := hnd.of_cons
    have hpnot : p ∉ ps := by
      rw [List.nodup_cons] at hnd
      exact hnd.1
    have hrest : (ps.flatMap fun q => l.filter fun o => decide (regPriority o = q))
        = ps.flatMap fun q =>
            (l.filter fun o => !decide (regPriority o = p)).filter
              fun o => decide (regPriority o = q) := by
      refine flatMap_congr_mem _ _ _ fun q hq => ?_
      have hqp : ¬ q = p := fun h2 => hpnot (h2 ▸ hq)
      rw [List.filter_filter]
      refine (List.filter_congr fun o _ => ?_).symm
      by_cases ho : regPriority o = q
      · simp [ho, hqp]
      · simp [ho]
    have hmem2 : ∀ o ∈ l.filter fun o => !decide (regPriority o = p), regPriority o ∈ ps := by
      intro o ho
      rw [List.mem_filter] at ho
      have := hmem o ho.1
      rw [List.mem_cons] at this
      rcases this with h2 | h2
      · exfalso
        simp [h2] at ho
      · exact h2
    have h1 : ((p :: ps).flatMap fun q => l.filter fun o => decide (regPriority o = q))
        = (l.filter fun o => decide (regPriority o = p))
            ++ ps.flatMap fun q =>
              (l.filter fun o => !decide (regPriority o = p)).filter
                fun o => decide (regPriority o = q) := by
      rw [List.flatMap_cons, hrest]
    have h2 : List.Perm
        ((l.filter fun o => decide (regPriority o = p))
          ++ ps.flatMap fun q =>
            (l.filter fun o => !decide (regPriority o = p)).filter
              fun o => decide (regPriority o = q))
        ((l.filter fun o => decide (regPriority o = p))
          ++ l.filter fun o => !decide (regPriority o = p)) :=
      List.Perm.append_left _ (ih _ hps hmem2)
    have h3 : List.Perm
        ((l.filter fun o => decide (regPriority o = p))
          ++ l.filter fun o => !decide (regPriority o = p)) l :=
      List.filter_append_perm _ l
    rw [h1]
    exact h2.trans h3

lemma specOrderedHooks_perm (ops : List (β × Option Int)) :
    List.Perm (specOrderedHooks ops) (ops.map Prod.fst) := by
  have hsplit : specOrderedHooks ops
      = ((((ops.map regPriority).dedup).insertionSort (· ≤ ·)).flatMap
          fun p => ops.filter fun o => decide (regPriority o = p)).map Prod.fst := by
    rw [List.map_flatMap]
    rfl
  rw [hsplit]
  refine List.Perm.map Prod.fst ?_
  refine flatMap_filter_perm _ ops ?_ ?_
  · exact ((List.perm_insertionSort _ _).symm).nodup (List.nodup_dedup _)
  · intro o ho
    rw [(List.perm_insertionSort (· ≤ ·) _).mem_iff, List.mem_dedup]
    exact List.mem_map_of_mem regPriority ho

lemma preOps_postOps_length (ops : List (RegOp π ψ)) :
    (preOpsOf ops).length + (postOpsOf ops).length = ops.length := by
  induction ops with
  | nil => rfl
  | cons o t ih => cases o <;> simp [preOpsOf, postOpsOf] <;> omega

/-- C1: for every state reached by a sequence of registrations, `PreHooks()`
(and symmetrically `PostHooks()`) returns all registered hooks flattened:
buckets in ascending numeric priority (negatives before zero and positives),
within a bucket in registration order (FIFO), irrespective of the order in
which the priorities themselves were first registered — `specOrderedHooks`
depends only on the sorted set of used priorities and the registration
sequence within each priority. -/
theorem preHooks_priority_fifo_order :
    ∀ (ops : List (RegOp π ψ)),
      ((NewHooksManager π ψ).applyOps ops).PreHooks = specOrderedHooks (preOpsOf ops) ∧
      ((NewHooksManager π ψ).applyOps ops).PostHooks = specOrderedHooks (postOpsOf ops) :=
  fun ops => ⟨preHooks_applyOps ops, postHooks_applyOps ops⟩

/-- C8: any serialization of N registration calls (the mutex in the source
serializes the bucket mutations, so a concurrent run is some interleaving,
i.e. some order of the N calls) yields a registry from which the reads
return exactly N hooks in total: no registration is lost. -/
theorem concurrent_registrations_not_lost :
    ∀ (ops : List (RegOp π ψ)),
      ((NewHooksManager π ψ).applyOps ops).PreHooks.length
        + ((NewHooksManager π ψ).applyOps ops).PostHooks.length = ops.length := by
  intro ops
  rw [preHooks_applyOps, postHooks_applyOps,
      (specOrderedHooks_perm (preOpsOf ops)).length_eq,
      (specOrderedHooks_perm (postOpsOf ops)).length_eq,
      List.length_map, List.length_map]
  exact preOps_postOps_length ops

/-- Go `strings.Contains(s, sub)`: `sub` occurs as a contiguous substring of
`s`; modelled on the character lists of the strings. -/
def goStringContains (s sub : String) : Bool :=
  decide (List.IsInfix sub.data s.data)

/-- Go `strings.HasSuffix(s, suffix)`, on the character lists. -/
def goHasSuffix (s suffix : String) : Bool :=
  suffix.data.isSuffixOf s.data

/-- Go `isTemplateContent` (engine.go): the name contains template syntax. -/
def isTemplateContent (s : String) : Bool :=
  goStringContains s "\x7b\x7b" || goStringContains s "\x7b%"

/-- The extension set by Go `NewRenderer` before options run: `.tpl`. -/
def defaultTplExt : String :=
  ".tpl"

/-- The path computed at the top of Go `RenderTemplate`: append the engine's
extension unless the name already ends with it. -/
def renderTemplatePath (tplExt name : String) : String :=
  if goHasSuffix name tplExt then name else name ++ tplExt

/-- What Go `Engine.Render` feeds the template engine: the name itself as
inline template content, or a template file path. -/
inductive RenderSource where
  | inline (content : String)
  | file (path : String)
deriving Repr, DecidableEq

/-- The dispatch of Go `Engine.Render` (engine.go): template content goes to
`RenderString` (inline), anything else to `RenderTemplate` (file lookup at
the computed path). -/
def renderDispatch (tplExt name : String) : RenderSource :=
  if isTemplateContent name then RenderSource.inline name
  else RenderSource.file (renderTemplatePath tplExt name)

/-- C9: `Render(name, data)` renders `name` itself as inline template content
exactly when `name` contains "{{" or "{%" as a substring; otherwise `name` is
treated as a file name, with the configured extension appended only when
`name` does not already end with it; the default extension is ".tpl". -/
theorem render_dispatch_inline_iff :
    ∀ (tplExt name : String),
      (renderDispatch tplExt name = RenderSource.inline name ↔
        (List.IsInfix "\x7b\x7b".data name.data ∨ List.IsInfix "\x7b%".data name.data)) ∧
      (¬ (List.IsInfix "\x7b\x7b".data name.data ∨ List.IsInfix "\x7b%".data name.data) →
        renderDispatch tplExt name = RenderSource.file
          (if List.IsSuffix tplExt.data name.data then name else name ++ tplExt)) ∧
      defaultTplExt = ".tpl" := by
  intro tplExt name
  refine ⟨?_, ?_, rfl⟩
  · by_cases h : List.IsInfix "\x7b\x7b".data name.data ∨ List.IsInfix "\x7b%".data name.data
    · simp [renderDispatch, isTemplateContent, goStringContains, h]
    · simp [renderDispatch, isTemplateContent, goStringContains, h]
  · intro h
    have hA : ¬ List.IsInfix "\x7b\x7b".data name.data := fun ha => h (Or.inl ha)
    have hB : ¬ List.IsInfix "\x7b%".data name.data := fun hb => h (Or.inr hb)
    simp [renderDispatch, isTemplateContent, goStringContains, hA, hB, renderTemplatePath,
      goHasSuffix, List.isSuffixOf_iff_suffix]

/-- C9 witness: a plain name with no template syntax is dispatched to the
file path with the extension handling applied. -/
theorem render_dispatch_inline_iff_witness :
    renderDispatch ".tpl" "hello" = RenderSource.file
      (if List.IsSuffix ".tpl".data "hello".data then "hello" else "hello" ++ ".tpl") :=
  (render_dispatch_inline_iff ".tpl" "hello").2.1 (by decide)

/-- Modelled from the spec: the render orchestrator's error taxonomy (§7).
The hook-integrated render path (`RegisterPreHook`/`RegisterPostHook` and the
hook-running `RenderTemplate`) is referenced by the repository's tests and
README but its source is not part of the embedded files; the error kinds are
PreHookError, EngineError and PostHookError, each carrying the originating
error's detail. -/
inductive RenderError (ε : Type) where
  | preHookFailed (e : ε)
  | templateExecFailed (e : ε)
  | postHookFailed (e : ε)
deriving Repr, DecidableEq

/-- Modelled from the spec: the 6-step render protocol of §4.3 for the
hook-integrated render path, whose Go source is not among the embedded files
(only its tests and README reference `RegisterPreHook`/`RegisterPostHook`).
Run the pre-hooks in order and abort on the first failure with a
"pre-hook failed" error; invoke the engine on the (possibly mutated) context
and abort with "template execution failed" without running post-hooks; set
`Output` to the raw rendered string, leave the pre stage, run the post-hooks
under the chain threading contract and abort with "post-hook failed" and no
output; otherwise return the final output. -/
def renderWithHooks (pres : List (PreHook α ε)) (posts : List (PostHook α ε))
    (engine : HookContext α → Except ε String) (ctx0 : HookContext α) :
    Except (RenderError ε) String :=
  match execPreLoop pres ctx0 with
  | (_, some e) => Except.error (RenderError.preHookFailed e)
  | (ctx1, none) =>
    match engine ctx1 with
    | Except.error e => Except.error (RenderError.templateExecFailed e)
    | Except.ok raw =>
      let ctx2 := { ctx1 with Output := raw, IsPreHook := false }
      match execPostLoop posts ctx2 ctx2.Output with
      | (_, _, some e) => Except.error (RenderError.postHookFailed e)
      | (_, out, none) => Except.ok out

/-- C4: a failing pre-hook aborts the render with a "pre-hook failed" error
embedding the hook's error, for EVERY engine and post-hook list (so neither
is invoked); an engine failure yields "template execution failed" for every
post-hook list (post-hooks never run); a failing post-hook yields
"post-hook failed" with no output returned. -/
theorem render_stage_error_wrapping :
    ∀ (pres : List (PreHook α ε)) (posts : List (PostHook α ε))
      (engine : HookContext α → Except ε String) (ctx0 : HookContext α),
      (∀ (ctx1 : HookContext α) (e : ε), execPreLoop pres ctx0 = (ctx1, some e) →
        renderWithHooks pres posts engine ctx0
          = Except.error (RenderError.preHookFailed e)) ∧
      (∀ (ctx1 : HookContext α) (e : ε),
        execPreLoop pres ctx0 = (ctx1, none) → engine ctx1 = Except.error e →
        renderWithHooks pres posts engine ctx0
          = Except.error (RenderError.templateExecFailed e)) ∧
      (∀ (ctx1 : HookContext α) (raw : String) (e : ε),
        execPreLoop pres ctx0 = (ctx1, none) → engine ctx1 = Except.ok raw →
        (execPostLoop posts { ctx1 with Output := raw, IsPreHook := false } raw).2.2
          = some e →
        renderWithHooks pres posts engine ctx0
          = Except.error (RenderError.postHookFailed e)) := by
  intro pres posts engine ctx0
  refine ⟨?_, ?_, ?_⟩
  · intro ctx1 e h1
    simp [renderWithHooks, h1]
  · intro ctx1 e h1 h2
    simp [renderWithHooks, h1, h2]
  · intro ctx1 raw e h1 h2 h3
    rcases hpost : execPostLoop posts { ctx1 with Output := raw, IsPreHook := false } raw
      with ⟨c, o, err⟩
    rw [hpost] at h3
    simp only at h3
    subst h3
    simp [renderWithHooks, h1, h2, hpost]

/-- C4 witness: a single failing pre-hook aborts a concrete render with the
wrapped pre-hook error, under an engine that would have succeeded. -/
theorem render_stage_error_wrapping_witness :
    renderWithHooks [failPreHook "boom"] [] (fun _ => Except.ok "out") sampleCtx
      = Except.error (RenderError.preHookFailed "boom") :=
  (render_stage_error_wrapping [failPreHook "boom"] [] (fun _ => Except.ok "out")
    sampleCtx).1 sampleCtx "boom" rfl
